import Mathlib

/-!
Shallow embedding of the template / request-file core of the `rq` repository
(`rq-core/src/parser.rs`, `rq-core/src/parser/variables.rs`,
`rq-core/src/parser/values.rs`).

Rust strings are modelled as lists of characters (`Str`), hash maps as
functions `Str → Option α` built by left-to-right insertion (Rust's
`HashMap::from_iter` / `extend` let a later binding for the same key
overwrite an earlier one), and the unboundedly recursive
`TemplateString::fill` as a fuel-indexed function (`none` = the recursion
did not finish within the given depth budget).
-/

/-- A Rust `String` / `&str`, modelled as its sequence of characters. -/
abbrev Str := List Char

/-- Rust `str::starts_with(c : char)`. -/
def startsWithChar (c : Char) (s : Str) : Bool :=
  match s with
  | [] => false
  | x :: _ => x == c

/-- Rust `str::ends_with(c : char)`. -/
def endsWithChar (c : Char) (s : Str) : Bool :=
  startsWithChar c s.reverse

/-- Rust `str::trim_matches(c : char)`: removes every leading and every
trailing occurrence of `c`. -/
def trimMatches (c : Char) (s : Str) : Str :=
  ((s.dropWhile (· == c)).reverse.dropWhile (· == c)).reverse

/-- `values::unquote` (`rq-core/src/parser/values.rs`): for each quote
character `'` then `"`, if the input both starts and ends with it, return
`input.trim_matches(c)`; otherwise return the input unchanged. -/
def unquote (input : Str) : Str :=
  if startsWithChar '\'' input && endsWithChar '\'' input then
    trimMatches '\'' input
  else if startsWithChar '"' input && endsWithChar '"' input then
    trimMatches '"' input
  else
    input

/-- `Variable` (`variables.rs`): a substitution point identified by name. -/
structure Variable where
  name : Str
deriving DecidableEq

/-- `Display for Variable`: `name` renders as `{{name}}`. -/
def Variable.render (v : Variable) : Str :=
  ('{' :: '{' :: v.name) ++ ['}', '}']

/-- `Fragment` (`variables.rs`): one literal-text or variable-reference unit
of a template string. -/
inductive Fragment where
  | Var (v : Variable)
  | RawText (s : Str)
deriving DecidableEq

/-- `Fragment::raw`. -/
def Fragment.raw (s : Str) : Fragment := .RawText s

/-- `Fragment::var`. -/
def Fragment.var (n : Str) : Fragment := .Var ⟨n⟩

/-- `TemplateString` (`variables.rs`): an ordered sequence of fragments. -/
structure TemplateString where
  fragments : List Fragment
deriving DecidableEq

/-- `FillError` (`variables.rs`): carries the variable that could not be
resolved. -/
structure FillError where
  missing_variable : Variable
deriving DecidableEq

/-- Rust `Result<String, FillError>`. -/
inductive FillResult where
  | ok (s : Str)
  | err (e : FillError)
deriving DecidableEq

/-- The variable table `HashMap<String, TemplateString>` as a lookup
function. -/
def Table := Str → Option TemplateString

/-- Insertion into a string-keyed hash map: the new binding shadows any
older binding of the same key. -/
def insertKV {α : Type} (m : Str → Option α) (k : Str) (v : α) : Str → Option α :=
  fun x => if x = k then some v else m x

/-- Rust `HashMap::from_iter` over a key/value sequence: insert the pairs
left to right (a later duplicate key overwrites an earlier one). -/
def collectKV {α : Type} (l : List (Str × α)) : Str → Option α :=
  l.foldl (fun m kv => insertKV m kv.1 kv.2) (fun _ => none)

/-- Rust `HashMap::extend` over a key/value sequence. -/
def extendKV {α : Type} (m : Str → Option α) (l : List (Str × α)) : Str → Option α :=
  l.foldl (fun m kv => insertKV m kv.1 kv.2) m

/-- Convenience constructor for concrete variable tables. -/
def tableOf (l : List (Str × TemplateString)) : Table :=
  collectKV l

/-- Collecting an iterator of `Result`s into a `Result<String>`, as Rust's
`collect` in `TemplateString::fill` does: stop at the first `Err` without
looking at later elements, otherwise concatenate the `Ok` strings in order.
`none` (a sub-computation that did not terminate) propagates, but an `Err`
produced before it still wins, matching the iterator's laziness. -/
def collectResults : List (Option FillResult) → Option FillResult
  | [] => some (.ok [])
  | r :: rs =>
    match r with
    | none => none
    | some (.err e) => some (.err e)
    | some (.ok s) =>
      match collectResults rs with
      | none => none
      | some (.err e) => some (.err e)
      | some (.ok t) => some (.ok (s ++ t))

/-- The body of the closure inside `TemplateString::fill`: resolve one
fragment, given the resolver for nested template strings. -/
def fillFragment (recur : TemplateString → Table → Option FillResult)
    (V : Table) : Fragment → Option FillResult
  | .RawText s => some (.ok s)
  | .Var v =>
    match V v.name with
    | none => some (.err ⟨v⟩)
    | some tv => recur tv V

/-- `TemplateString::fill` (`variables.rs`, lines 60–75), with an explicit
recursion-depth budget: map every fragment through the resolving closure and
collect the results. The Rust function is this with an unbounded budget; a
`none` result means the call would still be recursing at that depth. -/
def TemplateString.fill : Nat → TemplateString → Table → Option FillResult
  | 0, _, _ => none
  | n + 1, t, V => collectResults (t.fragments.map (fillFragment (TemplateString.fill n) V))

/-! ## Spec-side description of `fill` (spec §4.2, claims C1/C2)

`FillsTo n V fs ps` says: walking the fragments `fs` in order against the
table `V`, every lookup succeeds within recursion depth `n`, each `Raw`
fragment contributes its text verbatim, each `Var` fragment contributes the
concatenated pieces of recursively resolving that variable's own template
string against the same table, and `ps` is the resulting list of
contributed pieces in fragment order.  This is written from the spec's
words, independently of the `map`/`collect` shape of the source. -/

inductive FillsTo : Nat → Table → List Fragment → List Str → Prop where
  | nil (n : Nat) (V : Table) : FillsTo n V [] []
  | raw {n : Nat} {V : Table} {fs : List Fragment} {ps : List Str} (s : Str) :
      FillsTo n V fs ps → FillsTo n V (.RawText s :: fs) (s :: ps)
  | var {k : Nat} {V : Table} {v : Variable} {tv : TemplateString}
      {qs : List Str} {fs : List Fragment} {ps : List Str} :
      V v.name = some tv → FillsTo k V tv.fragments qs →
      FillsTo (k + 1) V fs ps → FillsTo (k + 1) V (.Var v :: fs) (qs.flatten :: ps)

/-! ## C2: the error names the first unresolvable variable -/

/-- Spec-side (spec §4.2, claim C2): `FirstMissing n V fs x` says that the
left-to-right walk of the fragments `fs` against `V` meets `x` as the first
unresolvable variable: every fragment before it resolves (raw text
verbatim, earlier variable references recursively, within depth `n`), and
`x` is either a reference directly absent from the table or the first
unresolvable variable inside a referenced variable's own definition. -/
inductive FirstMissing : Nat → Table → List Fragment → Variable → Prop where
  | raw {n : Nat} {V : Table} {fs : List Fragment} {x : Variable} (s : Str) :
      FirstMissing n V fs x → FirstMissing n V (.RawText s :: fs) x
  | varAbsent {n : Nat} {V : Table} {v : Variable} {fs : List Fragment} :
      V v.name = none → FirstMissing n V (.Var v :: fs) v
  | varInner {k : Nat} {V : Table} {v : Variable} {tv : TemplateString}
      {fs : List Fragment} {x : Variable} :
      V v.name = some tv → FirstMissing k V tv.fragments x →
      FirstMissing (k + 1) V (.Var v :: fs) x
  | varDone {k : Nat} {V : Table} {v : Variable} {tv : TemplateString}
      {qs : List Str} {fs : List Fragment} {x : Variable} :
      V v.name = some tv → FillsTo k V tv.fragments qs →
      FirstMissing (k + 1) V fs x → FirstMissing (k + 1) V (.Var v :: fs) x

/-! ## C4: cyclic variable tables -/

/-- The table `a = {{b}}`, `b = {{a}}` from the claim. -/
def cyclicTable : Table :=
  tableOf [((['a'] : Str), ⟨[Fragment.var ['b']]⟩),
           ((['b'] : Str), ⟨[Fragment.var ['a']]⟩)]

/-! ## C6: canonical rendering -/

/-- `Display for TemplateString` (`variables.rs`, lines 130–147): map each
fragment to its text (the `Variable` rendering for `Var`, the raw text for
`RawText`), collect into one string, and if that string starts or ends with
a space character, wrap the whole string in one pair of double quotes. -/
def TemplateString.display (t : TemplateString) : Str :=
  let s := (t.fragments.map fun f =>
    match f with
    | .Var v => v.render
    | .RawText s => s).flatten
  if startsWithChar ' ' s || endsWithChar ' ' s then ('"' :: s) ++ ['"'] else s

/-- Spec-side rendering of a fragment list (spec §4.2 canonical rendering,
claim C6), written as direct recursion: `Raw(text)` verbatim, `Var(name)`
as the literal text `{{name}}` with no resolution, concatenated in fragment
order. -/
def renderFragmentsSpec : List Fragment → Str
  | [] => []
  | .RawText s :: fs => s ++ renderFragmentsSpec fs
  | .Var v :: fs => (('{' :: '{' :: v.name) ++ ['}', '}']) ++ renderFragmentsSpec fs

/-- Spec-side canonical rendering of a whole template string: the fragment
concatenation, wrapped in one pair of double quotes exactly when it starts
or ends with a space character. -/
def renderSpec (t : TemplateString) : Str :=
  let s := renderFragmentsSpec t.fragments
  if startsWithChar ' ' s || endsWithChar ' ' s then ('"' :: s) ++ ['"'] else s

/-! ## C3: quote handling of literal runs -/

/-- One token of the Value Grammar's output for a value position: either a
variable reference (with its captured name) or a literal-text run. -/
inductive VToken where
  | var (name : Str)
  | lit (s : Str)

/-- `From<Pair> for TemplateString` (`variables.rs`, lines 86–102): a `var`
token becomes a `Var` fragment with the captured name; any other token run
becomes a `Raw` fragment after `values::unquote`. -/
def templateStringFromTokens (ts : List VToken) : TemplateString :=
  ⟨ts.map fun tk =>
    match tk with
    | .var n => Fragment.var n
    | .lit s => Fragment.raw (unquote s)⟩

/-- Number of leading copies of `c` at the front of `s`. -/
def leadCount (c : Char) (s : Str) : Nat := (s.takeWhile (· == c)).length

/-- Number of trailing copies of `c` on `s` once its leading copies of `c`
are removed. -/
def tailCount (c : Char) (s : Str) : Nat :=
  leadCount c (s.dropWhile (· == c)).reverse

/-! ## Request assembly (`parser.rs`) -/

/-- The HTTP version enum (`reqwest::Version` as consumed by the source). -/
inductive Version where
  | Http09
  | Http10
  | Http11
  | Http2
  | Http3
deriving DecidableEq

/-- The literal token each version is written as in a request file. -/
def Version.token : Version → Str
  | .Http09 => ("HTTP/0.9").toList
  | .Http10 => ("HTTP/1.0").toList
  | .Http11 => ("HTTP/1.1").toList
  | .Http2 => ("HTTP/2.0").toList
  | .Http3 => ("HTTP/3.0").toList

/-- `http_version_from_str` (`parser.rs`, lines 76–85). The Rust match has
an `unreachable!` arm for any other token (the grammar only produces the
five listed); that arm is modelled as `none`. -/
def http_version_from_str (input : Str) : Option Version :=
  if input = Version.token .Http09 then some .Http09
  else if input = Version.token .Http10 then some .Http10
  else if input = Version.token .Http11 then some .Http11
  else if input = Version.token .Http2 then some .Http2
  else if input = Version.token .Http3 then some .Http3
  else none

/-- `Version::default()` — `unwrap_or_default` falls back to `HTTP/1.1`. -/
def versionDefault : Version := .Http11

/-- `Method::default()` — `unwrap_or_default` falls back to `GET`; methods
are carried as their token text. -/
def methodDefault : Str := ("GET").toList

/-- The inline quote handling applied to each query value (`parser.rs`,
lines 134–140): for `'` then `"`, if the value starts and ends with that
character, return `value.trim_matches(c)`. -/
def queryValue (value : Str) : Str :=
  if startsWithChar '\'' value && endsWithChar '\'' value then trimMatches '\'' value
  else if startsWithChar '"' value && endsWithChar '"' value then trimMatches '"' value
  else value

/-- The query map of a request (`parser.rs`, lines 124–144): each
`key=value` pair keeps its key as-is and quote-trims its value, and the
pairs are collected into a `HashMap<String, String>` (plain strings on the
value side). -/
def mkQuery (kvs : List (Str × Str)) : Str → Option Str :=
  collectKV (kvs.map fun kv => (kv.1, queryValue kv.2))

/-- One inner pair of a `request` parse-tree node, with each payload at the
level the assembly code consumes it: the value positions of `url`, header
values and `body` as their value-grammar `TemplateString`s, query pairs as
raw key/value strings (the code reads them with `as_str`). -/
inductive RPair where
  | method (s : Str)
  | url (v : TemplateString)
  | query (kvs : List (Str × Str))
  | version (s : Str)
  | headers (hs : List (Str × TemplateString))
  | body (v : TemplateString)

/-- `HttpRequest` (`parser.rs`, lines 87–95). Note that `query` maps keys
to plain `String`s, not to `TemplateString`s. -/
structure HttpRequest where
  method : Str
  url : TemplateString
  query : Str → Option Str
  version : Version
  headers : Str → Option TemplateString
  body : TemplateString

/-- `From<Pair> for HttpRequest` (`parser.rs`, lines 113–167): a peekable
walk over the inner pairs. `method`, `query`, `version` and `headers` are
consumed only when the next pair has that rule (`next_if`), falling back to
`Method::default()` (GET), an empty map, `Version::default()` (HTTP/1.1)
and empty headers; the `url` pair is then taken unconditionally and the
remaining pair, if any, is the body. `none` models the panicking
(`unwrap` / `unreachable!`) paths, which grammar-produced pair streams
never reach. -/
def mkHttpRequest (ps : List RPair) : Option HttpRequest := do
  let (m, ps1) :=
    match ps with
    | .method s :: rest => (s, rest)
    | _ => (methodDefault, ps)
  let (u, ps2) ← match ps1 with
    | .url u :: rest => some (u, rest)
    | _ => none
  let (q, ps3) :=
    match ps2 with
    | .query kvs :: rest => (mkQuery kvs, rest)
    | _ => ((fun _ => none : Str → Option Str), ps2)
  let (ver, ps4) ← match ps3 with
    | .version s :: rest => (http_version_from_str s).map fun x => (x, rest)
    | _ => some (versionDefault, ps3)
  let (hs, ps5) :=
    match ps4 with
    | .headers h :: rest => (collectKV h, rest)
    | _ => ((fun _ => none : Str → Option TemplateString), ps4)
  let b ← match ps5 with
    | [] => some (⟨[]⟩ : TemplateString)
    | .body v :: _ => some v
    | _ => none
  some ⟨m, u, q, ver, hs, b⟩

/-- One top-level pair inside a `file` parse-tree node. -/
inductive FilePair where
  | request (ps : List RPair)
  | varBlock (defs : List (Str × TemplateString))
  | delim
  | eoi

/-- `parse_def_block` (`variables.rs`, lines 149–161): collect the
`@name = value` definitions of one variable block into a hash map (a later
duplicate of a name overwrites an earlier one). -/
def parse_def_block (defs : List (Str × TemplateString)) : Table :=
  collectKV defs

/-- `HttpFile` (`parser.rs`): the ordered requests plus the file-scope
variable table (`parse_def_block` produces `TemplateString` values). The
Rust field is named `variables`; that is a reserved word here, so the field
is called `vars`. -/
structure HttpFile where
  requests : List HttpRequest
  vars : Table

/-- `From<Pair> for HttpFile` (`parser.rs`, lines 185–206): walk the inner
pairs in order, pushing each `request` and extending the variable map with
each `var_block`'s definitions (extending with the block's collected map
equals inserting its definitions left to right: in both, the last binding
of a name wins); `EOI` and `DELIM` pairs are skipped. -/
def fileStep (acc : HttpFile) (p : FilePair) : Option HttpFile :=
  match p with
  | .request rps => (mkHttpRequest rps).map fun r => ⟨acc.requests ++ [r], acc.vars⟩
  | .varBlock defs => some ⟨acc.requests, extendKV acc.vars defs⟩
  | .delim => some acc
  | .eoi => some acc

/-- The fold of `From<Pair> for HttpFile` over the file's inner pairs,
starting from the empty `HttpFile`. -/
def httpFileFromPairs (ps : List FilePair) : Option HttpFile :=
  ps.foldlM fileStep ⟨[], fun _ => none⟩

/-- Modelled from the spec: `grammar.pest` is not under `src/`, so the
text-level request-file grammar is missing. Per spec §4.3, "An empty file
yields zero requests and zero variables (not an error)": on empty input
(after the `trim_start` in `parse`) the grammar succeeds producing no inner
pairs besides `EOI`. Non-empty inputs are beyond this model. -/
def filePairsOfText (input : Str) : Option (List FilePair) :=
  if input = [] then some [FilePair.eoi] else none

/-- `parse` (`parser.rs`, lines 221–226): trim leading whitespace, run the
grammar on the text, and build the `HttpFile` from the resulting `file`
pair. -/
def parse (input : Str) : Option HttpFile :=
  (filePairsOfText (input.dropWhile Char.isWhitespace)).bind httpFileFromPairs

/-- Spec-side (claim C10): the value of the last definition of `name`, in
source order, among a flat list of definitions. -/
def lastDefinition (defs : List (Str × TemplateString)) (name : Str) : Option TemplateString :=
  (defs.reverse.find? fun kv => kv.1 == name).map Prod.snd

example : TemplateString.fill 2
    ⟨[Fragment.raw (("a").toList), Fragment.var (("x").toList)]⟩
    (tableOf [((("x").toList), ⟨[Fragment.raw (("b").toList)]⟩)])
    = some (.ok (("ab").toList)) := by decide

theorem collectResults_cons_ok (r : Option FillResult) (rs : List (Option FillResult)) (s : Str) :
    collectResults (r :: rs) = some (.ok s) ↔
      ∃ s1 s2, r = some (.ok s1) ∧ collectResults rs = some (.ok s2) ∧ s = s1 ++ s2 := by
  cases r with
  | none => simp [collectResults]
  | some fr =>
    cases fr with
    | err e => simp [collectResults]
    | ok s1 =>
      cases h : collectResults rs with
      | none => simp [collectResults, h]
      | some fr2 =>
        cases fr2 with
        | err e => simp [collectResults, h]
        | ok s2 =>
          simp only [collectResults, h, Option.some.injEq, FillResult.ok.injEq]
          constructor
          · intro hs
            exact ⟨s1, s2, rfl, rfl, hs.symm⟩
          · rintro ⟨a, b, ⟨rfl, rfl⟩, hb, rfl⟩
            cases hb
            rfl

theorem fillAux_ok_forward : ∀ (n : Nat) (fs : List Fragment) (V : Table) (s : Str),
    collectResults (fs.map (fillFragment (TemplateString.fill n) V)) = some (.ok s) →
    ∃ ps, FillsTo n V fs ps ∧ s = ps.flatten := by
  intro n
  induction n with
  | zero =>
    intro fs
    induction fs with
    | nil =>
      intro V s h
      simp only [List.map_nil, collectResults, Option.some.injEq, FillResult.ok.injEq] at h
      exact ⟨[], .nil 0 V, h.symm⟩
    | cons f fs ih =>
      intro V s h
      rw [List.map_cons, collectResults_cons_ok] at h
      obtain ⟨s1, s2, h1, h2, rfl⟩ := h
      cases f with
      | RawText t =>
        obtain ⟨ps, hps, rfl⟩ := ih V s2 h2
        simp only [fillFragment, Option.some.injEq, FillResult.ok.injEq] at h1
        subst h1
        exact ⟨t :: ps, .raw t hps, by simp⟩
      | Var v =>
        exfalso
        cases hl : V v.name with
        | none => simp [fillFragment, hl] at h1
        | some tv => simp [fillFragment, hl, TemplateString.fill] at h1
  | succ m ihm =>
    intro fs
    induction fs with
    | nil =>
      intro V s h
      simp only [List.map_nil, collectResults, Option.some.injEq, FillResult.ok.injEq] at h
      exact ⟨[], .nil (m + 1) V, h.symm⟩
    | cons f fs ih =>
      intro V s h
      rw [List.map_cons, collectResults_cons_ok] at h
      obtain ⟨s1, s2, h1, h2, rfl⟩ := h
      obtain ⟨ps, hps, rfl⟩ := ih V s2 h2
      cases f with
      | RawText t =>
        simp only [fillFragment, Option.some.injEq, FillResult.ok.injEq] at h1
        subst h1
        exact ⟨t :: ps, .raw t hps, by simp⟩
      | Var v =>
        cases hl : V v.name with
        | none => simp [fillFragment, hl] at h1
        | some tv =>
          simp only [fillFragment, hl] at h1
          obtain ⟨qs, hqs, rfl⟩ := ihm tv.fragments V s1 h1
          exact ⟨qs.flatten :: ps, .var hl hqs hps, by simp⟩

theorem fillsTo_implies_fill_ok : ∀ {n : Nat} {V : Table} {fs : List Fragment} {ps : List Str},
    FillsTo n V fs ps →
    collectResults (fs.map (fillFragment (TemplateString.fill n) V)) = some (.ok ps.flatten) := by
  intro n V fs ps h
  induction h with
  | nil n V => simp [collectResults]
  | raw s hrest ih =>
    rw [List.map_cons]
    exact (collectResults_cons_ok _ _ _).mpr ⟨s, _, rfl, ih, by simp⟩
  | @var k W v tv qs gs ts hl hinner hrest ih1 ih2 =>
    rw [List.map_cons]
    refine (collectResults_cons_ok _ _ _).mpr ⟨qs.flatten, ts.flatten, ?_, ih2, ?_⟩
    · simp only [fillFragment, hl]
      exact ih1
    · simp

/-- **C1.** `fill` processes fragments in order: a `Raw(text)` fragment
contributes `text` verbatim, a `Var(name)` fragment contributes the string
obtained by looking up `name` in the table and recursively filling that
variable's template string against the same table; when every lookup
succeeds and the recursion terminates (some finite depth budget suffices),
the result is the concatenation of all contributed pieces in fragment
order. -/
theorem c1_fill_is_ordered_concatenation :
    ∀ (n : Nat) (t : TemplateString) (V : Table) (s : Str),
      TemplateString.fill (n + 1) t V = some (.ok s) ↔
        ∃ ps, FillsTo n V t.fragments ps ∧ s = ps.flatten := by
  intro n t V s
  constructor
  · intro h
    exact fillAux_ok_forward n t.fragments V s h
  · rintro ⟨ps, hp, rfl⟩
    exact fillsTo_implies_fill_ok hp

/-- Witness for C1 at a concrete template and table. -/
theorem c1_witness :
    TemplateString.fill 2 ⟨[Fragment.raw (("ab").toList), Fragment.var (("x").toList)]⟩
      (tableOf [((("x").toList), ⟨[Fragment.raw (("cd").toList)]⟩)])
      = some (.ok (("abcd").toList)) := by
  refine (c1_fill_is_ordered_concatenation 1
      ⟨[Fragment.raw (("ab").toList), Fragment.var (("x").toList)]⟩
      (tableOf [((("x").toList), ⟨[Fragment.raw (("cd").toList)]⟩)])
      (("abcd").toList)).mpr
    ⟨[("ab").toList, ([("cd").toList] : List Str).flatten], ?_, by decide⟩
  have hl : tableOf [((("x").toList), ⟨[Fragment.raw (("cd").toList)]⟩)] (("x").toList)
      = some ⟨[Fragment.raw (("cd").toList)]⟩ := by decide
  exact .raw (("ab").toList) (.var hl (.raw (("cd").toList) (.nil 0 _)) (.nil 1 _))

theorem collectResults_cons_err (r : Option FillResult) (rs : List (Option FillResult)) (e : FillError) :
    collectResults (r :: rs) = some (.err e) ↔
      r = some (.err e) ∨ ∃ s1, r = some (.ok s1) ∧ collectResults rs = some (.err e) := by
  cases r with
  | none => simp [collectResults]
  | some fr =>
    cases fr with
    | err e2 => simp [collectResults]
    | ok s1 =>
      cases h : collectResults rs with
      | none => simp [collectResults, h]
      | some fr2 =>
        cases fr2 with
        | err e2 => simp [collectResults, h]
        | ok s2 => simp [collectResults, h]

theorem fillAux_err_forward : ∀ (n : Nat) (fs : List Fragment) (V : Table) (x : Variable),
    collectResults (fs.map (fillFragment (TemplateString.fill n) V)) = some (.err ⟨x⟩) →
    FirstMissing n V fs x := by
  intro n
  induction n with
  | zero =>
    intro fs
    induction fs with
    | nil => intro V x h; simp [collectResults] at h
    | cons f fs ih =>
      intro V x h
      rw [List.map_cons, collectResults_cons_err] at h
      cases f with
      | RawText t =>
        rcases h with h1 | ⟨s1, h1, h2⟩
        · simp [fillFragment] at h1
        · exact .raw t (ih V x h2)
      | Var v =>
        cases hl : V v.name with
        | none =>
          rcases h with h1 | ⟨s1, h1, h2⟩
          · simp only [fillFragment, hl, Option.some.injEq, FillResult.err.injEq,
              FillError.mk.injEq] at h1
            subst h1
            exact .varAbsent hl
          · simp [fillFragment, hl] at h1
        | some tv =>
          rcases h with h1 | ⟨s1, h1, h2⟩
          · simp [fillFragment, hl, TemplateString.fill] at h1
          · simp [fillFragment, hl, TemplateString.fill] at h1
  | succ m ihm =>
    intro fs
    induction fs with
    | nil => intro V x h; simp [collectResults] at h
    | cons f fs ih =>
      intro V x h
      rw [List.map_cons, collectResults_cons_err] at h
      cases f with
      | RawText t =>
        rcases h with h1 | ⟨s1, h1, h2⟩
        · simp [fillFragment] at h1
        · exact .raw t (ih V x h2)
      | Var v =>
        cases hl : V v.name with
        | none =>
          rcases h with h1 | ⟨s1, h1, h2⟩
          · simp only [fillFragment, hl, Option.some.injEq, FillResult.err.injEq,
              FillError.mk.injEq] at h1
            subst h1
            exact .varAbsent hl
          · simp [fillFragment, hl] at h1
        | some tv =>
          rcases h with h1 | ⟨s1, h1, h2⟩
          · simp only [fillFragment, hl] at h1
            exact .varInner hl (ihm tv.fragments V x h1)
          · simp only [fillFragment, hl] at h1
            obtain ⟨qs, hqs, rfl⟩ := fillAux_ok_forward m tv.fragments V s1 h1
            exact .varDone hl hqs (ih V x h2)

theorem firstMissing_implies_fill_err : ∀ {n : Nat} {V : Table} {fs : List Fragment} {x : Variable},
    FirstMissing n V fs x →
    collectResults (fs.map (fillFragment (TemplateString.fill n) V)) = some (.err ⟨x⟩) := by
  intro n V fs x h
  induction h with
  | raw s hrest ih =>
    rw [List.map_cons]
    exact (collectResults_cons_err _ _ _).mpr (.inr ⟨s, rfl, ih⟩)
  | varAbsent hl =>
    rw [List.map_cons]
    refine (collectResults_cons_err _ _ _).mpr (.inl ?_)
    simp [fillFragment, hl]
  | varInner hl hinner ih =>
    rw [List.map_cons]
    refine (collectResults_cons_err _ _ _).mpr (.inl ?_)
    simp only [fillFragment, hl]
    exact ih
  | @varDone k W v tv qs gs x hl hfills hrest ih =>
    rw [List.map_cons]
    refine (collectResults_cons_err _ _ _).mpr (.inr ⟨qs.flatten, ?_, ih⟩)
    simp only [fillFragment, hl]
    exact fillsTo_implies_fill_ok hfills

/-- **C2.** If a template contains variable references that cannot be
resolved against the table (directly, or inside a referenced variable's
definition), `fill` returns an error carrying exactly the name of the first
unresolvable variable in left-to-right fragment order — and only that one
error, with no partial result: the returned error is `FillError ⟨x⟩` if and
only if `x` is the first unresolvable variable of the walk. -/
theorem c2_first_missing_variable :
    ∀ (n : Nat) (t : TemplateString) (V : Table) (x : Variable),
      TemplateString.fill (n + 1) t V = some (.err ⟨x⟩) ↔ FirstMissing n V t.fragments x := by
  intro n t V x
  constructor
  · intro h
    exact fillAux_err_forward n t.fragments V x h
  · intro h
    exact firstMissing_implies_fill_err h

/-- Witness for C2: `{{a}}{{b}}` against `{a = x}` fails on `b`, the first
unresolvable variable (after `a` resolves). -/
theorem c2_witness :
    TemplateString.fill 2 ⟨[Fragment.var (("a").toList), Fragment.var (("b").toList)]⟩
      (tableOf [((("a").toList), ⟨[Fragment.raw (("x").toList)]⟩)])
      = some (.err ⟨⟨("b").toList⟩⟩) := by
  refine (c2_first_missing_variable 1
      ⟨[Fragment.var (("a").toList), Fragment.var (("b").toList)]⟩
      (tableOf [((("a").toList), ⟨[Fragment.raw (("x").toList)]⟩)]) ⟨("b").toList⟩).mpr ?_
  have hl : tableOf [((("a").toList), ⟨[Fragment.raw (("x").toList)]⟩)] (("a").toList)
      = some ⟨[Fragment.raw (("x").toList)]⟩ := by decide
  have hb : tableOf [((("a").toList), ⟨[Fragment.raw (("x").toList)]⟩)] (("b").toList)
      = none := by decide
  exact .varDone hl (.raw (("x").toList) (.nil 0 _)) (.varAbsent hb)

theorem cyclic_fill_aux : ∀ n : Nat,
    TemplateString.fill n ⟨[Fragment.Var ⟨['a']⟩]⟩ cyclicTable = none ∧
    TemplateString.fill n ⟨[Fragment.Var ⟨['b']⟩]⟩ cyclicTable = none := by
  intro n
  induction n with
  | zero => exact ⟨rfl, rfl⟩
  | succ m ih =>
    have ha : cyclicTable ['a'] = some ⟨[Fragment.Var ⟨['b']⟩]⟩ := by decide
    have hb : cyclicTable ['b'] = some ⟨[Fragment.Var ⟨['a']⟩]⟩ := by decide
    constructor
    · show collectResults ([Fragment.Var ⟨['a']⟩].map
        (fillFragment (TemplateString.fill m) cyclicTable)) = none
      simp [fillFragment, ha, ih.2, collectResults]
    · show collectResults ([Fragment.Var ⟨['b']⟩].map
        (fillFragment (TemplateString.fill m) cyclicTable)) = none
      simp [fillFragment, hb, ih.1, collectResults]

/-- **C4 (the code lacks the claimed behaviour).** On the cyclic table
`a = {{b}}`, `b = {{a}}`, filling the template `{{a}}` never returns at any
recursion depth: the source `fill` has no cycle guard and `FillError` has
no `CyclicVariable` variant, so the Rust call recurses unboundedly instead
of failing with a `CyclicVariable` error. -/
theorem c4_cyclic_fill_never_returns : ∀ n : Nat,
    TemplateString.fill n ⟨[Fragment.var ['a']]⟩ cyclicTable = none := by
  intro n
  exact (cyclic_fill_aux n).1

/-! ## C9: determinism -/

/-- **C9.** `fill` is deterministic and side-effect-free: it is embedded as
a pure function of its inputs (the Rust method takes `&self` and a shared
reference to the table and builds a fresh `String`, mutating nothing), so
two invocations on equal inputs return equal results. -/
theorem c9_fill_deterministic :
    ∀ (n n2 : Nat) (t t2 : TemplateString) (V V2 : Table),
      n = n2 → t = t2 → V = V2 →
      TemplateString.fill n t V = TemplateString.fill n2 t2 V2 := by
  intro n n2 t t2 V V2 hn ht hV
  rw [hn, ht, hV]

/-- Witness for C9 at a concrete template and table. -/
theorem c9_witness :
    TemplateString.fill 2 ⟨[Fragment.var (("a").toList)]⟩
        (tableOf [((("a").toList), ⟨[Fragment.raw (("x").toList)]⟩)])
      = TemplateString.fill 2 ⟨[Fragment.var (("a").toList)]⟩
        (tableOf [((("a").toList), ⟨[Fragment.raw (("x").toList)]⟩)]) :=
  c9_fill_deterministic 2 2 _ _ _ _ rfl rfl rfl

theorem renderFragments_eq : ∀ fs : List Fragment,
    (fs.map fun f =>
      match f with
      | .Var v => v.render
      | .RawText s => s).flatten = renderFragmentsSpec fs := by
  intro fs
  induction fs with
  | nil => rfl
  | cons f fs ih =>
    rw [List.map_cons, List.flatten_cons, ih]
    cases f with
    | Var v =>
      simp [renderFragmentsSpec, Variable.render]
    | RawText s =>
      simp [renderFragmentsSpec]

/-- **C6.** `to_string` renders each `Raw(text)` verbatim and each
`Var(name)` as the literal text `{{name}}` with no resolution, concatenated
in fragment order; if that concatenation starts or ends with a space
character the whole rendered string is wrapped in one pair of double
quotes, otherwise it is returned unwrapped. -/
theorem c6_display_matches_spec : ∀ t : TemplateString,
    TemplateString.display t = renderSpec t := by
  intro t
  unfold TemplateString.display renderSpec
  rw [renderFragments_eq]

theorem takeWhile_beq_eq_replicate (c : Char) : ∀ s : Str,
    s.takeWhile (· == c) = List.replicate (leadCount c s) c := by
  intro s
  induction s with
  | nil => rfl
  | cons x xs ih =>
    by_cases hx : x = c
    · subst hx
      rw [List.takeWhile_cons]
      simp only [beq_self_eq_true, if_true, ih]
      simp [leadCount, List.takeWhile_cons, List.replicate_succ]
    · have hxc : (x == c) = false := by simp [hx]
      rw [List.takeWhile_cons]
      simp [hxc, leadCount, List.takeWhile_cons]

theorem startsWithChar_dropWhile_self (c : Char) : ∀ s : Str,
    startsWithChar c (s.dropWhile (· == c)) = false := by
  intro s
  induction s with
  | nil => rfl
  | cons x xs ih =>
    by_cases hx : x = c
    · subst hx
      simpa [List.dropWhile_cons] using ih
    · have hxc : (x == c) = false := by simp [hx]
      simp [List.dropWhile_cons, hxc, startsWithChar]

theorem startsWithChar_append_left (c : Char) (l l2 : Str) (h : l ≠ []) :
    startsWithChar c (l ++ l2) = startsWithChar c l := by
  cases l with
  | nil => exact absurd rfl h
  | cons x xs => rfl

theorem trimMatches_decomp (c : Char) (s : Str) :
    s = List.replicate (leadCount c s) c ++ trimMatches c s ++ List.replicate (tailCount c s) c ∧
    startsWithChar c (trimMatches c s) = false ∧
    endsWithChar c (trimMatches c s) = false := by
  have hs : s = List.replicate (leadCount c s) c ++ s.dropWhile (· == c) := by
    conv_lhs => rw [← List.takeWhile_append_dropWhile (p := (· == c)) (l := s)]
    rw [takeWhile_beq_eq_replicate]
  have h2 : (s.dropWhile (· == c)).reverse
      = List.replicate (tailCount c s) c ++ (s.dropWhile (· == c)).reverse.dropWhile (· == c) := by
    conv_lhs => rw [← List.takeWhile_append_dropWhile (p := (· == c))
      (l := (s.dropWhile (· == c)).reverse)]
    rw [takeWhile_beq_eq_replicate]
    rfl
  have ht1eq : s.dropWhile (· == c)
      = trimMatches c s ++ List.replicate (tailCount c s) c := by
    have h3 := congrArg List.reverse h2
    rw [List.reverse_reverse, List.reverse_append, List.reverse_replicate] at h3
    exact h3
  refine ⟨?_, ?_, ?_⟩
  · conv_lhs => rw [hs, ht1eq]
    rw [List.append_assoc]
  · rcases hrev : trimMatches c s with _ | ⟨y, ys⟩
    · rfl
    · have hfalse : startsWithChar c (s.dropWhile (· == c)) = false :=
        startsWithChar_dropWhile_self c s
      rw [ht1eq, hrev] at hfalse
      rw [startsWithChar_append_left c (y :: ys) _ (by simp)] at hfalse
      exact hfalse
  · show startsWithChar c (trimMatches c s).reverse = false
    have hrr : (trimMatches c s).reverse
        = (s.dropWhile (· == c)).reverse.dropWhile (· == c) := by
      simp [trimMatches]
    rw [hrr]
    exact startsWithChar_dropWhile_self c (s.dropWhile (· == c)).reverse

/-- **C3 counterexample.** The claim predicts that a same-quote-delimited
run of length ≥ 2 loses exactly one leading and one trailing character
(so `''a''` would be stored as `'a'`), and that a run of length 1 is stored
unchanged (so `'` would stay `'`). The code instead trims all leading and
trailing quote characters: `''a''` is stored as `a`, and `'` as the empty
string. -/
theorem c3_counterexample :
    templateStringFromTokens [VToken.lit (("''a''").toList)]
        = ⟨[Fragment.RawText (("a").toList)]⟩ ∧
      (("a").toList : Str) ≠ ("'a'").toList ∧
      templateStringFromTokens [VToken.lit (("'").toList)]
        = ⟨[Fragment.RawText ([] : Str)]⟩ ∧
      (([] : Str) ≠ ("'").toList) := by
  refine ⟨by decide, by decide, by decide, by decide⟩

/-- **C3 (amended).** For every literal run that both starts and ends with
the same quote character `c` (`'` or `"`) — including runs of length 1 —
`unquote` removes all leading and all trailing copies of `c`: the input
factors as `c^k ++ unquote s ++ c^l` with the stored run neither starting
nor ending with `c` (a length-1 quote run becomes empty). A run that does
not both start and end with the same quote character is stored unchanged. -/
theorem c3_amended_unquote : ∀ s : Str,
    (∀ c : Char, c = '\'' ∨ c = '"' → startsWithChar c s = true → endsWithChar c s = true →
      s = List.replicate (leadCount c s) c ++ unquote s ++ List.replicate (tailCount c s) c ∧
      startsWithChar c (unquote s) = false ∧ endsWithChar c (unquote s) = false) ∧
    ((startsWithChar '\'' s && endsWithChar '\'' s) = false →
      (startsWithChar '"' s && endsWithChar '"' s) = false →
      unquote s = s) := by
  intro s
  constructor
  · rintro c (rfl | rfl) hs he
    · have hu : unquote s = trimMatches '\'' s := by
        simp [unquote, hs, he]
      rw [hu]
      exact trimMatches_decomp '\'' s
    · have hq : startsWithChar '\'' s = false := by
        cases s with
        | nil => simp [startsWithChar] at hs
        | cons x xs =>
          simp only [startsWithChar] at hs ⊢
          simp only [beq_iff_eq] at hs
          subst hs
          decide
      have hu : unquote s = trimMatches '"' s := by
        simp [unquote, hq, hs, he]
      rw [hu]
      exact trimMatches_decomp '"' s
  · intro h1 h2
    unfold unquote
    rw [h1, h2]
    rfl

/-- Witness for the amended C3 at the concrete run `''a''`. -/
theorem c3_amended_witness :
    (("''a''").toList : Str)
        = List.replicate (leadCount '\'' (("''a''").toList)) '\''
          ++ unquote (("''a''").toList)
          ++ List.replicate (tailCount '\'' (("''a''").toList)) '\'' ∧
      startsWithChar '\'' (unquote (("''a''").toList)) = false ∧
      endsWithChar '\'' (unquote (("''a''").toList)) = false :=
  (c3_amended_unquote (("''a''").toList)).1 '\'' (Or.inl rfl) (by decide) (by decide)

theorem foldl_insert_lookup {α : Type} : ∀ (l : List (Str × α)) (m : Str → Option α) (k : Str),
    (l.foldl (fun m kv => insertKV m kv.1 kv.2) m) k
      = match l.reverse.find? (fun kv => kv.1 == k) with
        | some kv => some kv.2
        | none => m k := by
  intro l
  induction l with
  | nil => intro m k; rfl
  | cons d l ih =>
    intro m k
    rw [List.foldl_cons, ih, List.reverse_cons, List.find?_append]
    cases hf : l.reverse.find? (fun kv => kv.1 == k) with
    | some kv => rfl
    | none =>
      by_cases hk : d.1 = k
      · simp [List.find?_cons, hk, insertKV]
      · have hk2 : (d.1 == k) = false := by simp [hk]
        have hk3 : ¬(k = d.1) := fun h => hk h.symm
        simp [List.find?_cons, hk2, insertKV, hk3]

theorem collectKV_lookup {α : Type} (l : List (Str × α)) (k : Str) :
    collectKV l k = (l.reverse.find? (fun kv => kv.1 == k)).map Prod.snd := by
  rw [collectKV, foldl_insert_lookup]
  cases l.reverse.find? (fun kv => kv.1 == k) with
  | some kv => rfl
  | none => rfl

/-- **C8.** `parse` applied to the empty string succeeds (no parse error)
and yields an `HttpFile` whose request list is empty and whose variables
map is empty. -/
theorem c8_parse_empty : parse ([] : Str) = some ⟨[], fun _ => none⟩ := rfl

theorem http_version_from_str_token : ∀ v : Version,
    http_version_from_str v.token = some v := by
  intro v
  cases v <;> rfl

/-- **C7.** In the pair stream of a request block, the `method` pair is
optional: when absent the parsed request's method is GET, and when present
the request carries exactly the method written. Likewise the `version`
pair: absent gives HTTP/1.1, present gives exactly the version written.
(The optional query, headers and body parts behave independently.) -/
theorem c7_method_version_defaults :
    ∀ (om : Option Str) (u : TemplateString) (oq : Option (List (Str × Str)))
      (ov : Option Version) (oh : Option (List (Str × TemplateString)))
      (ob : Option TemplateString),
      mkHttpRequest ((om.toList.map RPair.method) ++ [RPair.url u]
          ++ (oq.toList.map RPair.query)
          ++ (ov.toList.map fun x => RPair.version x.token)
          ++ (oh.toList.map RPair.headers)
          ++ (ob.toList.map RPair.body))
        = some ⟨om.getD methodDefault, u, mkQuery (oq.getD []), ov.getD versionDefault,
            collectKV (oh.getD []), ob.getD ⟨[]⟩⟩ := by
  intro om u oq ov oh ob
  cases ov with
  | none => cases om <;> cases oq <;> cases oh <;> cases ob <;> rfl
  | some v => cases v <;> cases om <;> cases oq <;> cases oh <;> cases ob <;> rfl

/-- **C5 counterexample.** A query value consisting of the template syntax
`{{name}}` is stored by the request parser as that literal plain text
(`query` is a map to plain strings); it is not a variable reference — the
resolution that `fill` performs on a genuine `TemplateString` reference
(shown alongside) yields the table's value instead. -/
theorem c5_counterexample :
    mkQuery [((("q").toList), (("\x7b\x7bname\x7d\x7d").toList))] (("q").toList)
        = some (("\x7b\x7bname\x7d\x7d").toList) ∧
      TemplateString.fill 2 ⟨[Fragment.var (("name").toList)]⟩
          (tableOf [((("name").toList), ⟨[Fragment.raw (("X").toList)]⟩)])
        = some (.ok (("X").toList)) ∧
      (("\x7b\x7bname\x7d\x7d").toList : Str) ≠ ("X").toList := by
  refine ⟨by decide, by decide, by decide⟩

/-- **C5 (amended).** The `query` field of a parsed request maps each key
to a plain string, not to a `TemplateString`: the value side is stored as
literal text (so a `{{name}}` occurrence stays literal and is never
resolved at fill time), except that a value that starts and ends with the
same quote character has all its leading and trailing copies of that
character trimmed; for a duplicated key the last pair in source order
wins. -/
theorem c5_amended_query :
    ∀ (kvs : List (Str × Str)) (k v : Str),
      mkQuery kvs k
          = ((kvs.reverse.find? fun kv => kv.1 == k).map fun kv => queryValue kv.2) ∧
      ((startsWithChar '\'' v && endsWithChar '\'' v) = false →
        (startsWithChar '"' v && endsWithChar '"' v) = false →
        queryValue v = v) := by
  intro kvs k v
  constructor
  · rw [mkQuery, collectKV_lookup, ← List.map_reverse, List.find?_map]
    have hp : ((fun kv : Str × Str => kv.1 == k) ∘ fun kv : Str × Str => (kv.1, queryValue kv.2))
        = fun kv : Str × Str => kv.1 == k := rfl
    rw [hp, Option.map_map]
    rfl
  · intro h1 h2
    unfold queryValue
    rw [h1, h2]
    rfl

/-- Witness for the amended C5 at a concrete query list. -/
theorem c5_amended_witness :
    mkQuery [((("a").toList), (("x").toList)), ((("a").toList), (("y").toList))] (("a").toList)
        = (([((("a").toList : Str), (("x").toList : Str)),
            ((("a").toList : Str), (("y").toList : Str))].reverse.find?
              fun kv => kv.1 == ("a").toList).map fun kv => queryValue kv.2) ∧
      queryValue (("bar").toList) = ("bar").toList := by
  have h := c5_amended_query
    [((("a").toList), (("x").toList)), ((("a").toList), (("y").toList))]
    (("a").toList) (("bar").toList)
  exact ⟨h.1, h.2 (by decide) (by decide)⟩

theorem foldlM_varBlocks : ∀ (blocks : List (List (Str × TemplateString))) (acc : HttpFile),
    List.foldlM fileStep acc (blocks.map FilePair.varBlock)
      = some ⟨acc.requests, extendKV acc.vars blocks.flatten⟩ := by
  intro blocks
  induction blocks with
  | nil => intro acc; rfl
  | cons b bs ih =>
    intro acc
    rw [List.map_cons, List.foldlM_cons]
    show (some (⟨acc.requests, extendKV acc.vars b⟩ : HttpFile)
        >>= fun init => List.foldlM fileStep init (bs.map FilePair.varBlock)) = _
    simp only [Option.bind_eq_bind, Option.some_bind]
    rw [ih]
    show _ = some (⟨acc.requests, extendKV acc.vars (b ++ bs.flatten)⟩ : HttpFile)
    rw [extendKV, extendKV, extendKV, List.foldl_append]

/-- **C10.** When the same variable name is defined more than once across
the `@name = value` definitions of a file's variable blocks, building the
`HttpFile` succeeds, and its variables map binds the name to the value of
the last definition in source order. -/
theorem c10_last_definition_wins :
    ∀ (blocks : List (List (Str × TemplateString))) (name : Str),
      ∃ f : HttpFile, httpFileFromPairs (blocks.map FilePair.varBlock) = some f ∧
        f.requests = [] ∧
        f.vars name = lastDefinition blocks.flatten name := by
  intro blocks name
  refine ⟨⟨[], extendKV (fun _ => none) blocks.flatten⟩, ?_, rfl, ?_⟩
  · rw [httpFileFromPairs, foldlM_varBlocks]
  · show collectKV blocks.flatten name = lastDefinition blocks.flatten name
    rw [collectKV_lookup]
    rfl
